import Mathlib

/-!
Verification of the PCM framing/pacing core of the 21AI agent worker.

The repository's only non-trivial algorithm is `playPcmAsFrames`: it splits a
raw 16-bit little-endian mono PCM byte buffer into frames of a nominal
sample count and delivers them, one per nominal frame duration, to an audio
sink (`audioSource.captureFrame` followed by `sleep(FRAME_DURATION_MS)`).

Two segmentation variants occur in the sources:
* `src/index.js` (and the identical loop in `src/unnamed/part_005`): a
  byte-offset loop, `endOffset = Math.min(offset + FRAME_SIZE_BYTES, len)`,
  taking a zero-copy `subarray` and viewing it as an `Int16Array` of
  `floor(byteLen / 2)` samples;
* `src/unnamed/part_001` (and `part_003`): a sample-offset loop over the
  whole-buffer `Int16Array` view, copying
  `Math.min(SAMPLES_PER_FRAME, remaining)` samples per frame.

The embedding below models byte buffers as `List Nat`, decoded samples as
`List Int`, and the pacing loop as a trace of capture/sleep events driven by
a sink success function.  Loops that advance a cursor by `take`/`drop` are
written with an explicit fuel argument so that they are structurally
recursive; fuel equal to the buffer length is proven sufficient
(`chunksRun_complete` below), which is exactly the termination argument of
the source loops, whose step is at least one element because the hardcoded
samples-per-frame constants are positive.  At samples-per-frame 0 the source
loops would not advance (they never run that way: the constants are
hardcoded positive); the fueled model simply stops, and every theorem about
a parametric samples-per-frame carries the hypothesis that it is positive.
-/

namespace AgentWorker

/-- Audio constants of `src/index.js` lines 44-49 (16 kHz mono PCM). -/
def SAMPLE_RATE : Nat := 16000

/-- Channel count, `src/index.js` line 45. -/
def NUM_CHANNELS : Nat := 1

/-- Frame duration in milliseconds, `src/index.js` line 46. -/
def FRAME_DURATION_MS : Nat := 20

/-- `Math.floor((SAMPLE_RATE * FRAME_DURATION_MS) / 1000)`, `src/index.js`
line 47; `Nat` division is the floor. -/
def SAMPLES_PER_FRAME : Nat := SAMPLE_RATE * FRAME_DURATION_MS / 1000

/-- Bytes per 16-bit sample, `src/index.js` line 48. -/
def BYTES_PER_SAMPLE : Nat := 2

/-- `SAMPLES_PER_FRAME * BYTES_PER_SAMPLE`, `src/index.js` line 49. -/
def FRAME_SIZE_BYTES : Nat := SAMPLES_PER_FRAME * BYTES_PER_SAMPLE

/-- Decoding of one 16-bit little-endian signed sample from two bytes, as an
`Int16Array` view over buffer bytes performs it. -/
def int16OfBytes (lo hi : Nat) : Int :=
  let u : Nat := lo % 256 + 256 * (hi % 256)
  if u < 32768 then (u : Int) else (u : Int) - 65536

/-- The `Int16Array` view of a byte region: consecutive byte pairs decoded as
little-endian signed 16-bit samples.  A trailing unpaired byte is not part of
any sample, matching the JavaScript view length `floor(byteLength / 2)` (the
sources pass `byteLength / 2`, which `ToIndex` truncates). -/
def bytesToSamples : List Nat → List Int
  | lo :: hi :: rest => int16OfBytes lo hi :: bytesToSamples rest
  | _ => []

/-- One cursor loop shared by both segmenters: repeatedly split off the next
`k` elements (fewer at the end) until the buffer is exhausted.  `l.take k`
is JavaScript's `subarray(offset, Math.min(offset + k, len))` slice, and
`l.drop k` is the cursor advance `offset += Math.min(k, remaining)`.  The
`fuel` argument makes the recursion structural; `fuel = l.length` is enough
whenever `0 < k` (`chunksFuel_fuel_eq`). -/
def chunksFuel (k : Nat) : Nat → List α → List (List α)
  | _, [] => []
  | 0, _ :: _ => []
  | fuel + 1, l => l.take k :: chunksFuel k fuel (l.drop k)

/-- The same loop, reporting `none` when the iteration budget is exhausted
with input remaining: `chunksRun k fuel l = some _` says the source loop
finishes within `fuel` iterations. -/
def chunksRun (k : Nat) : Nat → List α → Option (List (List α))
  | _, [] => some []
  | 0, _ :: _ => none
  | fuel + 1, l => (chunksRun k fuel (l.drop k)).map (fun c => l.take k :: c)

/-- The sample-level segmentation loop of `src/unnamed/part_001` lines
133-155 (also `part_003`), with the hardcoded `SAMPLES_PER_FRAME` constant
generalized to a parameter `k`: each iteration copies
`Math.min(k, totalSamples - offset)` samples into a fresh frame and advances
`offset` by that count. -/
def framesGen (k : Nat) (pcm : List Int) : List (List Int) :=
  chunksFuel k pcm.length pcm

/-- The segmentation performed by `playPcmAsFrames` of
`src/unnamed/part_001` lines 117-158: the copying loop at its hardcoded
`SAMPLES_PER_FRAME`. -/
def framesOfSamples (pcm : List Int) : List (List Int) :=
  framesGen SAMPLES_PER_FRAME pcm

/-- The segmentation performed by `playPcmAsFrames` of `src/index.js` lines
173-197 (identically `src/unnamed/part_005`): the byte loop slices
`subarray(offset, Math.min(offset + FRAME_SIZE_BYTES, len))` and views each
slice as an `Int16Array` of `floor(sliceBytes / 2)` samples. -/
def framesOfBytes (bytes : List Nat) : List (List Int) :=
  (chunksFuel FRAME_SIZE_BYTES bytes.length bytes).map bytesToSamples

/-- The odd-length guard of `ttsElevenLabs`, `src/index.js` lines 134-138:
`if (buffer.length % 2 !== 0) buffer = buffer.subarray(0, buffer.length - 1)`.
It runs once, on the whole buffer, before `playPcmAsFrames` is called. -/
def trimOddByte (buffer : List Nat) : List Nat :=
  if buffer.length % 2 ≠ 0 then buffer.take (buffer.length - 1) else buffer

/-- Segmentation configuration of spec §3: sample rate, channel count and
frame duration.  `src/index.js` hardcodes `⟨16000, 1, 20⟩`. -/
structure FrameSpec where
  sampleRate : Nat
  numChannels : Nat
  frameDurationMs : Nat

/-- Derived nominal samples-per-frame of a `FrameSpec`:
`floor(sampleRate * frameDurationMs / 1000)`, the generalization of the
`SAMPLES_PER_FRAME` computation of `src/index.js` line 47. -/
def FrameSpec.nominalSamplesPerFrame (s : FrameSpec) : Nat :=
  s.sampleRate * s.frameDurationMs / 1000

/-- Error taxonomy of spec §7 for the segment operation. -/
inductive SegmentError where
  | invalidFrameSpec
deriving DecidableEq

/-- Modelled from the spec: the parametric `segment(buffer, spec)` operation
of §4.1 with its `InvalidFrameSpec` validation.  The sources hardcode the
`FrameSpec` to 16000 Hz / 20 ms (nominal 320) and contain no validation or
error value; only the segmentation loop itself is source code (`framesGen`,
from `src/unnamed/part_001`).  The guard rejects, per §4.1, any spec whose
derived nominal samples-per-frame is 0 before any frame is produced. -/
def segment (spec : FrameSpec) (pcm : List Int) :
    Except SegmentError (List (List Int)) :=
  if spec.nominalSamplesPerFrame = 0 then Except.error SegmentError.invalidFrameSpec
  else Except.ok (framesGen spec.nominalSamplesPerFrame pcm)

/-- Observable events of one `playPcmAsFrames` run: a `captureFrame` attempt
carrying the frame's samples and whether the sink accepted it, and a
`sleep(ms)` pacing delay. -/
inductive Ev where
  | capture (samples : List Int) (ok : Bool)
  | sleep (ms : Nat)
deriving DecidableEq, Repr

/-- The pacing loop body of `playPcmAsFrames` (`src/index.js` lines 175-197)
on an explicit frame sequence: for each frame in order,
`await audioSource.captureFrame(frame)` — if the sink rejects (the promise
throws), the error propagates at once, ending the run with no retry and no
further frames — then `await sleep(FRAME_DURATION_MS)`, then the next frame.
`sinkOk i` tells whether the i-th capture succeeds; the `Bool` result is
`true` when the run completes normally.  `playPcmAsFrames_factor` proves this
loop-on-frames equal to the fused source loop `playLoopFuel`. -/
def pace (sinkOk : Nat → Bool) (ms : Nat) : Nat → List (List Int) → List Ev × Bool
  | _, [] => ([], true)
  | i, f :: fs =>
    if sinkOk i then
      let r := pace sinkOk ms (i + 1) fs
      (Ev.capture f true :: Ev.sleep ms :: r.1, r.2)
    else
      ([Ev.capture f false], false)

/-- The frames successfully delivered to the sink in a trace, in order. -/
def capturedFrames (tr : List Ev) : List (List Int) :=
  tr.filterMap fun e =>
    match e with
    | Ev.capture f true => some f
    | _ => none

/-- The fused `while (offset < pcmBuffer.length)` loop of `src/index.js`
lines 173-197, literal: slice `take FRAME_SIZE_BYTES`, view as samples,
`captureFrame` (aborting on sink failure), `sleep FRAME_DURATION_MS`, advance
by `drop FRAME_SIZE_BYTES`.  Fuel makes the recursion structural; the
enclosing `playPcmAsFrames` supplies `bytes.length`, which is sufficient. -/
def playLoopFuel (sinkOk : Nat → Bool) : Nat → Nat → List Nat → List Ev × Bool
  | _, _, [] => ([], true)
  | 0, _, _ :: _ => ([], true)
  | fuel + 1, i, bytes =>
    let frame := bytesToSamples (bytes.take FRAME_SIZE_BYTES)
    if sinkOk i then
      let r := playLoopFuel sinkOk fuel (i + 1) (bytes.drop FRAME_SIZE_BYTES)
      (Ev.capture frame true :: Ev.sleep FRAME_DURATION_MS :: r.1, r.2)
    else
      ([Ev.capture frame false], false)

/-- `playPcmAsFrames(audioSource, pcmBuffer)` of `src/index.js` lines
159-200.  `none` models a `null`/`undefined` buffer: the guard
`if (!pcmBuffer || pcmBuffer.length === 0) return;` completes normally with
no delivery and no delay for both absent and empty buffers. -/
def playPcmAsFrames (sinkOk : Nat → Bool) (pcmBuffer : Option (List Nat)) :
    List Ev × Bool :=
  match pcmBuffer with
  | none => ([], true)
  | some bytes =>
    if bytes.length = 0 then ([], true)
    else playLoopFuel sinkOk bytes.length 0 bytes

/-! ### Basic properties of the chunking loop -/

theorem chunksFuel_nil {α : Type _} (k fuel : Nat) :
    chunksFuel (α := α) k fuel [] = [] := by
  cases fuel <;> rfl

theorem chunksRun_nil {α : Type _} (k fuel : Nat) :
    chunksRun (α := α) k fuel [] = some [] := by
  cases fuel <;> rfl

theorem chunksFuel_succ_cons {α : Type _} (k fuel : Nat) (a : α) (rest : List α) :
    chunksFuel k (fuel + 1) (a :: rest)
      = (a :: rest).take k :: chunksFuel k fuel ((a :: rest).drop k) := rfl

/-- Any fuel at least the buffer length gives the same chunks as fuel exactly
the buffer length, provided the step `k` is positive. -/
theorem chunksFuel_fuel_eq {α : Type _} (k : Nat) (hk : 0 < k) :
    ∀ (n : Nat) (l : List α) (fuel : Nat), l.length ≤ n → l.length ≤ fuel →
      chunksFuel k fuel l = chunksFuel k l.length l := by
  intro n
  induction n with
  | zero =>
    intro l fuel hl _
    have hnil : l = [] := by
      cases l with
      | nil => rfl
      | cons a rest => simp at hl
    subst hnil
    simp [chunksFuel_nil]
  | succ n ih =>
    intro l fuel hl hf
    cases l with
    | nil => simp [chunksFuel_nil]
    | cons a rest =>
      cases fuel with
      | zero => simp at hf
      | succ f =>
        have hrn : rest.length ≤ n := by simpa using hl
        have hrf : rest.length ≤ f := by simpa using hf
        have hdlen : ((a :: rest).drop k).length ≤ rest.length := by
          simp only [List.length_drop, List.length_cons]
          omega
        have h1 : chunksFuel k f ((a :: rest).drop k)
            = chunksFuel k ((a :: rest).drop k).length ((a :: rest).drop k) :=
          ih _ _ (le_trans hdlen hrn) (le_trans hdlen hrf)
        have h2 : chunksFuel k rest.length ((a :: rest).drop k)
            = chunksFuel k ((a :: rest).drop k).length ((a :: rest).drop k) :=
          ih _ _ (le_trans hdlen hrn) hdlen
        rw [List.length_cons, chunksFuel_succ_cons, chunksFuel_succ_cons, h1, h2]

/-- Termination of the source loop: with positive step `k`, the loop finishes
within `length` iterations — `chunksRun` never runs out of fuel. -/
theorem chunksRun_complete {α : Type _} (k : Nat) (hk : 0 < k) :
    ∀ (n : Nat) (l : List α) (fuel : Nat), l.length ≤ n → l.length ≤ fuel →
      chunksRun k fuel l = some (chunksFuel k fuel l) := by
  intro n
  induction n with
  | zero =>
    intro l fuel hl _
    have hnil : l = [] := by
      cases l with
      | nil => rfl
      | cons a rest => simp at hl
    subst hnil
    simp [chunksRun_nil, chunksFuel_nil]
  | succ n ih =>
    intro l fuel hl hf
    cases l with
    | nil => simp [chunksRun_nil, chunksFuel_nil]
    | cons a rest =>
      cases fuel with
      | zero => simp at hf
      | succ f =>
        have hrn : rest.length ≤ n := by simpa using hl
        have hrf : rest.length ≤ f := by simpa using hf
        have hdlen : ((a :: rest).drop k).length ≤ rest.length := by
          simp only [List.length_drop, List.length_cons]
          omega
        have h1 : chunksRun k f ((a :: rest).drop k)
            = some (chunksFuel k f ((a :: rest).drop k)) :=
          ih _ _ (le_trans hdlen hrn) (le_trans hdlen hrf)
        show (chunksRun k f ((a :: rest).drop k)).map _ = _
        rw [h1, chunksFuel_succ_cons]
        rfl

/-- Sample conservation of the chunking loop: the chunks concatenate back to
the input. -/
theorem chunksFuel_flatten {α : Type _} (k : Nat) (hk : 0 < k) :
    ∀ (n : Nat) (l : List α), l.length ≤ n →
      (chunksFuel k l.length l).flatten = l := by
  intro n
  induction n with
  | zero =>
    intro l hl
    have hnil : l = [] := by
      cases l with
      | nil => rfl
      | cons a rest => simp at hl
    subst hnil
    simp [chunksFuel_nil]
  | succ n ih =>
    intro l hl
    cases l with
    | nil => simp [chunksFuel_nil]
    | cons a rest =>
      have hrn : rest.length ≤ n := by simpa using hl
      have hdlen : ((a :: rest).drop k).length ≤ rest.length := by
        simp only [List.length_drop, List.length_cons]
        omega
      rw [List.length_cons, chunksFuel_succ_cons]
      have hfix : chunksFuel k rest.length ((a :: rest).drop k)
          = chunksFuel k ((a :: rest).drop k).length ((a :: rest).drop k) :=
        chunksFuel_fuel_eq k hk n _ _ (le_trans hdlen hrn) hdlen
      rw [List.flatten_cons, hfix, ih _ (le_trans hdlen hrn), List.take_append_drop]

/-- Shape of the chunk sizes: `length / k` full chunks of size `k`, then the
remainder `length % k` as a final short chunk when it is nonzero. -/
theorem chunksFuel_map_length {α : Type _} (k : Nat) (hk : 0 < k) :
    ∀ (n : Nat) (l : List α), l.length ≤ n →
      (chunksFuel k l.length l).map List.length
        = List.replicate (l.length / k) k
          ++ (if l.length % k = 0 then [] else [l.length % k]) := by
  intro n
  induction n with
  | zero =>
    intro l hl
    have hnil : l = [] := by
      cases l with
      | nil => rfl
      | cons a rest => simp at hl
    subst hnil
    simp [chunksFuel_nil]
  | succ n ih =>
    intro l hl
    cases l with
    | nil => simp [chunksFuel_nil]
    | cons a rest =>
      have hrn : rest.length ≤ n := by simpa using hl
      have hm1 : (a :: rest).length = rest.length + 1 := by simp
      by_cases hle : rest.length + 1 ≤ k
      · -- a single (possibly full) chunk
        have htake : (a :: rest).take k = a :: rest :=
          List.take_of_length_le (by omega)
        have hdrop : (a :: rest).drop k = [] := by
          apply List.drop_eq_nil_of_le
          omega
        rw [hm1, chunksFuel_succ_cons, htake, hdrop, chunksFuel_nil]
        rcases Nat.lt_or_ge (rest.length + 1) k with hlt | hge
        · have hdiv : (rest.length + 1) / k = 0 := Nat.div_eq_of_lt hlt
          have hmod : (rest.length + 1) % k = rest.length + 1 :=
            Nat.mod_eq_of_lt hlt
          rw [hdiv, hmod]
          simp
        · have hmk : rest.length + 1 = k := by omega
          rw [hmk, Nat.div_self hk, Nat.mod_self]
          simp [hmk]
      · -- a full chunk of k, then the rest
        have hgt : k < rest.length + 1 := by omega
        have htake : ((a :: rest).take k).length = k := by
          rw [List.length_take]
          omega
        have hdlen : ((a :: rest).drop k).length = rest.length + 1 - k := by
          simp
        have hfix : chunksFuel k rest.length ((a :: rest).drop k)
            = chunksFuel k ((a :: rest).drop k).length ((a :: rest).drop k) :=
          chunksFuel_fuel_eq k hk n _ _ (by omega) (by omega)
        rw [hm1, chunksFuel_succ_cons, List.map_cons, htake, hfix,
          ih _ (by omega), hdlen]
        have hsub : rest.length + 1 = (rest.length + 1 - k) + k := by omega
        have hdiv : (rest.length + 1) / k = (rest.length + 1 - k) / k + 1 := by
          conv_lhs => rw [hsub]
          exact Nat.add_div_right _ hk
        have hmod : (rest.length + 1) % k = (rest.length + 1 - k) % k := by
          conv_lhs => rw [hsub]
          exact Nat.add_mod_right _ _
        rw [hdiv, hmod, List.replicate_succ, List.cons_append]

/-- Ceiling division identity used for the frame count. -/
theorem ceil_div_eq (k n : Nat) (hk : 0 < k) :
    n / k + (if n % k = 0 then 0 else 1) = (n + k - 1) / k := by
  obtain ⟨q, r, hr, hn⟩ : ∃ q r, r < k ∧ n = k * q + r :=
    ⟨n / k, n % k, Nat.mod_lt _ hk, (Nat.div_add_mod n k).symm⟩
  have hdiv : n / k = q := by
    rw [hn, Nat.mul_add_div hk, Nat.div_eq_of_lt hr, Nat.add_zero]
  have hmod : n % k = r := by
    rw [hn, Nat.mul_add_mod, Nat.mod_eq_of_lt hr]
  rcases Nat.eq_zero_or_pos r with hr0 | hrpos
  · subst hr0
    have h1 : n + k - 1 = k * q + (k - 1) := by omega
    rw [hdiv, hmod, h1, Nat.mul_add_div hk, Nat.div_eq_of_lt (by omega)]
    simp
  · have h1 : n + k - 1 = k * (q + 1) + (r - 1) := by
      have : k * (q + 1) = k * q + k := by ring
      omega
    rw [hdiv, hmod, h1, Nat.mul_add_div hk, Nat.div_eq_of_lt (by omega)]
    have : ¬ r = 0 := by omega
    simp [this]

/-! ### Properties of the 16-bit sample view -/

theorem bytesToSamples_nil : bytesToSamples [] = [] := rfl

theorem bytesToSamples_single (x : Nat) : bytesToSamples [x] = [] := rfl

theorem bytesToSamples_cons₂ (lo hi : Nat) (rest : List Nat) :
    bytesToSamples (lo :: hi :: rest) = int16OfBytes lo hi :: bytesToSamples rest := rfl

theorem bytesToSamples_length : ∀ l : List Nat,
    (bytesToSamples l).length = l.length / 2
  | [] => rfl
  | [_] => by simp [bytesToSamples_single]
  | lo :: hi :: rest => by
    rw [bytesToSamples_cons₂, List.length_cons, bytesToSamples_length rest]
    have : (lo :: hi :: rest).length = rest.length + 2 := by simp
    rw [this, Nat.add_div_right _ (by omega)]

theorem bytesToSamples_take : ∀ (k : Nat) (l : List Nat),
    bytesToSamples (l.take (2 * k)) = (bytesToSamples l).take k := by
  intro k
  induction k with
  | zero => intro l; simp [bytesToSamples_nil]
  | succ k ih =>
    intro l
    match l with
    | [] => simp [bytesToSamples_nil]
    | [x] =>
      have h1 : [x].take (2 * (k + 1)) = [x] := List.take_of_length_le (by simp; omega)
      rw [h1, bytesToSamples_single]
      simp
    | lo :: hi :: rest =>
      have h2 : 2 * (k + 1) = (2 * k) + 1 + 1 := by ring
      rw [h2, List.take_succ_cons, List.take_succ_cons, bytesToSamples_cons₂,
        bytesToSamples_cons₂, ih rest, List.take_succ_cons]

theorem bytesToSamples_drop : ∀ (k : Nat) (l : List Nat),
    bytesToSamples (l.drop (2 * k)) = (bytesToSamples l).drop k := by
  intro k
  induction k with
  | zero => intro l; simp
  | succ k ih =>
    intro l
    match l with
    | [] => simp [bytesToSamples_nil]
    | [x] =>
      have h1 : [x].drop (2 * (k + 1)) = [] := List.drop_eq_nil_of_le (by simp; omega)
      rw [h1, bytesToSamples_single, bytesToSamples_nil]
      simp
    | lo :: hi :: rest =>
      have h2 : 2 * (k + 1) = (2 * k) + 1 + 1 := by ring
      rw [h2, List.drop_succ_cons, List.drop_succ_cons, bytesToSamples_cons₂,
        ih rest, List.drop_succ_cons]

theorem bytesToSamples_append_even : ∀ (l₁ l₂ : List Nat), l₁.length % 2 = 0 →
    bytesToSamples (l₁ ++ l₂) = bytesToSamples l₁ ++ bytesToSamples l₂
  | [], l₂, _ => by simp [bytesToSamples_nil]
  | [_], _, h => by simp at h
  | lo :: hi :: rest, l₂, h => by
    have hr : rest.length % 2 = 0 := by
      have : (lo :: hi :: rest).length = rest.length + 2 := by simp
      omega
    rw [List.cons_append, List.cons_append, bytesToSamples_cons₂,
      bytesToSamples_cons₂, bytesToSamples_append_even rest l₂ hr,
      List.cons_append]

/-- Dropping the final unpaired byte of an odd-length buffer does not change
its 16-bit sample view. -/
theorem bytesToSamples_take_pred_odd : ∀ (l : List Nat), l.length % 2 = 1 →
    bytesToSamples (l.take (l.length - 1)) = bytesToSamples l
  | [], h => by simp at h
  | [x], _ => by simp [bytesToSamples_nil, bytesToSamples_single]
  | lo :: hi :: rest, h => by
    have hr : rest.length % 2 = 1 := by
      have : (lo :: hi :: rest).length = rest.length + 2 := by simp
      omega
    have hrpos : 0 < rest.length := by omega
    have hlen : (lo :: hi :: rest).length - 1 = rest.length - 1 + 1 + 1 := by
      simp
      omega
    rw [hlen, List.take_succ_cons, List.take_succ_cons, bytesToSamples_cons₂,
      bytesToSamples_cons₂, bytesToSamples_take_pred_odd rest hr]

/-! ### Segmenter-level lemmas -/

theorem SAMPLES_PER_FRAME_eq : SAMPLES_PER_FRAME = 320 := by decide

theorem FRAME_SIZE_BYTES_eq : FRAME_SIZE_BYTES = 640 := by decide

theorem SAMPLES_PER_FRAME_pos : 0 < SAMPLES_PER_FRAME := by decide

theorem FRAME_SIZE_BYTES_pos : 0 < FRAME_SIZE_BYTES := by decide

/-- The copying segmenter conserves samples. -/
theorem framesOfSamples_flatten (pcm : List Int) :
    (framesOfSamples pcm).flatten = pcm :=
  chunksFuel_flatten SAMPLES_PER_FRAME SAMPLES_PER_FRAME_pos pcm.length pcm le_rfl

/-- The byte-slicing segmenter conserves samples: its frames concatenate to
the 16-bit view of the whole buffer (for any byte length, odd included). -/
theorem framesOfBytes_flatten_aux : ∀ (n : Nat) (bytes : List Nat),
    bytes.length ≤ n →
    ((chunksFuel FRAME_SIZE_BYTES bytes.length bytes).map bytesToSamples).flatten
      = bytesToSamples bytes := by
  intro n
  induction n with
  | zero =>
    intro bytes hl
    have hnil : bytes = [] := by
      cases bytes with
      | nil => rfl
      | cons a rest => simp at hl
    subst hnil
    simp [chunksFuel_nil, bytesToSamples_nil]
  | succ n ih =>
    intro bytes hl
    cases bytes with
    | nil => simp [chunksFuel_nil, bytesToSamples_nil]
    | cons a rest =>
      have hrn : rest.length ≤ n := by simpa using hl
      have hdlen : ((a :: rest).drop FRAME_SIZE_BYTES).length
          = rest.length + 1 - FRAME_SIZE_BYTES := by simp
      have hfix : chunksFuel FRAME_SIZE_BYTES rest.length
            ((a :: rest).drop FRAME_SIZE_BYTES)
          = chunksFuel FRAME_SIZE_BYTES
            ((a :: rest).drop FRAME_SIZE_BYTES).length
            ((a :: rest).drop FRAME_SIZE_BYTES) := by
        apply chunksFuel_fuel_eq FRAME_SIZE_BYTES FRAME_SIZE_BYTES_pos n
        · rw [hdlen]
          have := FRAME_SIZE_BYTES_pos
          omega
        · rw [hdlen]
          have := FRAME_SIZE_BYTES_pos
          omega
      rw [List.length_cons, chunksFuel_succ_cons, List.map_cons,
        List.flatten_cons, hfix, ih _ (by rw [hdlen]; have := FRAME_SIZE_BYTES_pos; omega)]
      by_cases hle : rest.length + 1 ≤ FRAME_SIZE_BYTES
      · have htake : (a :: rest).take FRAME_SIZE_BYTES = a :: rest :=
          List.take_of_length_le (by simpa using hle)
        have hdrop : (a :: rest).drop FRAME_SIZE_BYTES = [] :=
          List.drop_eq_nil_of_le (by simpa using hle)
        rw [htake, hdrop, bytesToSamples_nil, List.append_nil]
      · have htlen : ((a :: rest).take FRAME_SIZE_BYTES).length % 2 = 0 := by
          rw [List.length_take, FRAME_SIZE_BYTES_eq] at *
          simp only [List.length_cons]
          omega
        rw [← bytesToSamples_append_even _ _ htlen, List.take_append_drop]

theorem framesOfBytes_flatten (bytes : List Nat) :
    (framesOfBytes bytes).flatten = bytesToSamples bytes :=
  framesOfBytes_flatten_aux bytes.length bytes le_rfl

/-- The copying (sample-level) segmenter of `part_001` and the zero-copy
(byte-level) segmenter of `index.js` agree on even-length buffers. -/
theorem seg_equiv_aux : ∀ (n : Nat) (bytes : List Nat),
    bytes.length ≤ n → bytes.length % 2 = 0 →
    chunksFuel SAMPLES_PER_FRAME (bytesToSamples bytes).length (bytesToSamples bytes)
      = (chunksFuel FRAME_SIZE_BYTES bytes.length bytes).map bytesToSamples := by
  intro n
  induction n with
  | zero =>
    intro bytes hl _
    have hnil : bytes = [] := by
      cases bytes with
      | nil => rfl
      | cons a rest => simp at hl
    subst hnil
    simp [chunksFuel_nil, bytesToSamples_nil]
  | succ n ih =>
    intro bytes hl heven
    match bytes with
    | [] => simp [chunksFuel_nil, bytesToSamples_nil]
    | [x] => simp at heven
    | a :: b :: rest2 =>
      have hlen2 : (a :: b :: rest2).length = rest2.length + 2 := by simp
      have hslen : (bytesToSamples (a :: b :: rest2)).length
          = rest2.length / 2 + 1 := by
        rw [bytesToSamples_length, hlen2]
        omega
      have h2k : FRAME_SIZE_BYTES = 2 * SAMPLES_PER_FRAME := by decide
      -- head chunks agree
      have hhead : (bytesToSamples (a :: b :: rest2)).take SAMPLES_PER_FRAME
          = bytesToSamples ((a :: b :: rest2).take FRAME_SIZE_BYTES) := by
        rw [h2k, bytesToSamples_take]
      -- dropped remainders correspond
      have hdropEq : (bytesToSamples (a :: b :: rest2)).drop SAMPLES_PER_FRAME
          = bytesToSamples ((a :: b :: rest2).drop FRAME_SIZE_BYTES) := by
        rw [h2k, bytesToSamples_drop]
      have hdlen : ((a :: b :: rest2).drop FRAME_SIZE_BYTES).length
          = rest2.length + 2 - FRAME_SIZE_BYTES := by simp
      have hdeven : ((a :: b :: rest2).drop FRAME_SIZE_BYTES).length % 2 = 0 := by
        rw [hdlen, FRAME_SIZE_BYTES_eq]
        rw [hlen2] at heven
        omega
      have hdn : ((a :: b :: rest2).drop FRAME_SIZE_BYTES).length ≤ n := by
        rw [hdlen, FRAME_SIZE_BYTES_eq]
        rw [hlen2] at hl
        omega
      -- fuel normalization on the samples side
      have hsfix : chunksFuel SAMPLES_PER_FRAME (rest2.length / 2)
            ((bytesToSamples (a :: b :: rest2)).drop SAMPLES_PER_FRAME)
          = chunksFuel SAMPLES_PER_FRAME
            ((bytesToSamples ((a :: b :: rest2).drop FRAME_SIZE_BYTES)).length)
            (bytesToSamples ((a :: b :: rest2).drop FRAME_SIZE_BYTES)) := by
        rw [hdropEq]
        refine chunksFuel_fuel_eq SAMPLES_PER_FRAME SAMPLES_PER_FRAME_pos
          ((bytesToSamples ((a :: b :: rest2).drop FRAME_SIZE_BYTES)).length)
          _ _ le_rfl ?_
        rw [bytesToSamples_length, hdlen, FRAME_SIZE_BYTES_eq]
        omega
      -- fuel normalization on the bytes side
      have hbfix : chunksFuel FRAME_SIZE_BYTES (rest2.length + 1)
            ((a :: b :: rest2).drop FRAME_SIZE_BYTES)
          = chunksFuel FRAME_SIZE_BYTES
            ((a :: b :: rest2).drop FRAME_SIZE_BYTES).length
            ((a :: b :: rest2).drop FRAME_SIZE_BYTES) := by
        apply chunksFuel_fuel_eq FRAME_SIZE_BYTES FRAME_SIZE_BYTES_pos n
        · exact hdn
        · rw [hdlen, FRAME_SIZE_BYTES_eq]
          omega
      rw [hslen, hlen2]
      rw [show rest2.length + 2 = (rest2.length + 1) + 1 from rfl]
      rw [bytesToSamples_cons₂] at *
      rw [chunksFuel_succ_cons, chunksFuel_succ_cons, List.map_cons]
      rw [← bytesToSamples_cons₂] at *
      rw [hhead]
      refine congrArg₂ _ rfl ?_
      rw [hsfix, hbfix]
      exact ih _ hdn hdeven

/-! ### Pacer lemmas -/

/-- The per-frame event pattern of a successful delivery: the capture, then
the fixed nominal pacing delay. -/
def deliverPat (ms : Nat) (f : List Int) : List Ev :=
  [Ev.capture f true, Ev.sleep ms]

theorem pace_nil (sinkOk : Nat → Bool) (ms i : Nat) :
    pace sinkOk ms i [] = ([], true) := rfl

theorem pace_cons (sinkOk : Nat → Bool) (ms i : Nat) (f : List Int)
    (fs : List (List Int)) :
    pace sinkOk ms i (f :: fs)
      = if sinkOk i then
          (Ev.capture f true :: Ev.sleep ms :: (pace sinkOk ms (i + 1) fs).1,
            (pace sinkOk ms (i + 1) fs).2)
        else ([Ev.capture f false], false) := rfl

/-- With a sink that accepts every frame, the pacer emits, per frame in
order, exactly one successful capture followed by one nominal delay, and
completes normally. -/
theorem pace_all_ok (sinkOk : Nat → Bool) (ms : Nat)
    (h : ∀ i, sinkOk i = true) :
    ∀ (i : Nat) (frames : List (List Int)),
      pace sinkOk ms i frames = ((frames.map (deliverPat ms)).flatten, true) := by
  intro i frames
  induction frames generalizing i with
  | nil => simp [pace_nil]
  | cons f fs ih =>
    rw [pace_cons, h i, if_pos rfl, ih (i + 1)]
    simp [deliverPat]

/-- If the sink accepts the first `j` frames and rejects the next, the pacer
delivers exactly the first `j` frames (each followed by its delay), makes a
single failed attempt at frame `j`, and stops with a failure — no retry, no
later frame, no delay after the failure. -/
theorem pace_fail_at (sinkOk : Nat → Bool) (ms : Nat) :
    ∀ (frames : List (List Int)) (i j : Nat), j < frames.length →
      (∀ t, t < j → sinkOk (i + t) = true) → sinkOk (i + j) = false →
      pace sinkOk ms i frames
        = (((frames.take j).map (deliverPat ms)).flatten
            ++ [Ev.capture (frames.getD j []) false], false) := by
  intro frames
  induction frames with
  | nil => intro i j hj _ _; simp at hj
  | cons f fs ih =>
    intro i j hj hpre hfail
    cases j with
    | zero =>
      have h0 : sinkOk i = false := by simpa using hfail
      rw [pace_cons, h0]
      simp
    | succ j =>
      have h0 : sinkOk i = true := by
        have := hpre 0 (Nat.succ_pos j)
        simpa using this
      have hpre' : ∀ t, t < j → sinkOk (i + 1 + t) = true := by
        intro t ht
        have := hpre (t + 1) (by omega)
        have harith : i + (t + 1) = i + 1 + t := by omega
        rwa [harith] at this
      have hfail' : sinkOk (i + 1 + j) = false := by
        have harith : i + (j + 1) = i + 1 + j := by omega
        rwa [harith] at hfail
      have hj' : j < fs.length := by simpa using hj
      rw [pace_cons, h0, if_pos rfl, ih (i + 1) j hj' hpre' hfail']
      simp [deliverPat]

theorem capturedFrames_nil : capturedFrames [] = [] := rfl

theorem capturedFrames_append (tr₁ tr₂ : List Ev) :
    capturedFrames (tr₁ ++ tr₂) = capturedFrames tr₁ ++ capturedFrames tr₂ := by
  simp [capturedFrames]

/-- In an all-success trace, the delivered frames are exactly the input
frames, in order. -/
theorem capturedFrames_flatten_deliverPat (ms : Nat) :
    ∀ frames : List (List Int),
      capturedFrames ((frames.map (deliverPat ms)).flatten) = frames := by
  intro frames
  induction frames with
  | nil => rfl
  | cons f fs ih =>
    rw [List.map_cons, List.flatten_cons, capturedFrames_append, ih]
    rfl

theorem capturedFrames_failed_capture (f : List Int) :
    capturedFrames [Ev.capture f false] = [] := rfl

/-! ### The fused source loop factors into segmentation followed by pacing -/

theorem playLoopFuel_nil (sinkOk : Nat → Bool) (fuel i : Nat) :
    playLoopFuel sinkOk fuel i [] = ([], true) := by
  cases fuel <;> rfl

theorem playLoopFuel_succ_cons (sinkOk : Nat → Bool) (fuel i : Nat) (a : Nat)
    (rest : List Nat) :
    playLoopFuel sinkOk (fuel + 1) i (a :: rest)
      = (if sinkOk i then
          (Ev.capture (bytesToSamples ((a :: rest).take FRAME_SIZE_BYTES)) true
            :: Ev.sleep FRAME_DURATION_MS
            :: (playLoopFuel sinkOk fuel (i + 1) ((a :: rest).drop FRAME_SIZE_BYTES)).1,
           (playLoopFuel sinkOk fuel (i + 1) ((a :: rest).drop FRAME_SIZE_BYTES)).2)
        else
          ([Ev.capture (bytesToSamples ((a :: rest).take FRAME_SIZE_BYTES)) false],
            false)) := rfl

/-- The fused `while` loop of `src/index.js` equals the pacer run over the
segmenter's frame sequence, for every fuel and start index. -/
theorem playLoopFuel_eq_pace (sinkOk : Nat → Bool) :
    ∀ (fuel i : Nat) (bytes : List Nat),
      playLoopFuel sinkOk fuel i bytes
        = pace sinkOk FRAME_DURATION_MS i
            ((chunksFuel FRAME_SIZE_BYTES fuel bytes).map bytesToSamples) := by
  intro fuel
  induction fuel with
  | zero =>
    intro i bytes
    cases bytes with
    | nil => rfl
    | cons a rest => rfl
  | succ fuel ih =>
    intro i bytes
    cases bytes with
    | nil => rw [playLoopFuel_nil]; rfl
    | cons a rest =>
      rw [playLoopFuel_succ_cons, chunksFuel_succ_cons, List.map_cons, pace_cons,
        ih (i + 1) ((a :: rest).drop FRAME_SIZE_BYTES)]

/-- `playPcmAsFrames` is the guard plus the pacer over the segmenter. -/
theorem playPcmAsFrames_factor (sinkOk : Nat → Bool) (bytes : List Nat) :
    playPcmAsFrames sinkOk (some bytes)
      = if bytes.length = 0 then ([], true)
        else pace sinkOk FRAME_DURATION_MS 0 (framesOfBytes bytes) := by
  by_cases h : bytes.length = 0
  · simp [playPcmAsFrames, h]
  · simp only [playPcmAsFrames, if_neg h]
    exact playLoopFuel_eq_pace sinkOk bytes.length 0 bytes

/-- Last-chunk size in closed form: for a positive buffer, the size of the
final frame is `((n - 1) % k) + 1`, which is `k` when `k` divides `n` and
`n % k` otherwise. -/
theorem pred_mod_succ (k n : Nat) (hk : 0 < k) (hn : 0 < n) :
    (n - 1) % k + 1 = if n % k = 0 then k else n % k := by
  have hqr : k * (n / k) + n % k = n := Nat.div_add_mod n k
  by_cases hr : n % k = 0
  · rw [if_pos hr]
    rw [hr, Nat.add_zero] at hqr
    have hq : 0 < n / k := by
      rcases Nat.eq_zero_or_pos (n / k) with h0 | h1
      · rw [h0, Nat.mul_zero] at hqr
        omega
      · exact h1
    obtain ⟨q, hq1⟩ : ∃ q, n / k = q + 1 := ⟨n / k - 1, by omega⟩
    have hn1 : n - 1 = k * q + (k - 1) := by
      have hnk : n = k * q + k := by
        rw [← hqr, hq1]
        ring
      have hkq : k * q + k - 1 = k * q + (k - 1) := Nat.add_sub_assoc hk _
      omega
    rw [hn1, Nat.mul_add_mod, Nat.mod_eq_of_lt (by omega)]
    omega
  · rw [if_neg hr]
    have hrlt : n % k < k := Nat.mod_lt _ hk
    have hn1 : n - 1 = k * (n / k) + (n % k - 1) := by omega
    rw [hn1, Nat.mul_add_mod, Nat.mod_eq_of_lt (by omega)]
    omega

/-! ### Claim theorems -/

/-- C1: Sample conservation.  For every PCM buffer (after truncation to whole
16-bit samples), the in-order concatenation of the sample slices of all
frames produced by the segmentation loop of `playPcmAsFrames` equals exactly
the sequence of samples of the input buffer — no sample duplicated, dropped,
reordered, or split across a frame boundary.  Stated for both source
segmenters: the byte-slicing loop of `src/index.js` and the copying loop of
`src/unnamed/part_001`. -/
theorem sample_conservation (bytes : List Nat) (pcm : List Int) :
    (framesOfBytes bytes).flatten = bytesToSamples bytes ∧
    (framesOfSamples pcm).flatten = pcm :=
  ⟨framesOfBytes_flatten bytes, framesOfSamples_flatten pcm⟩

/-- C2: Frame count and sizes.  Segmenting a buffer of exactly `n` samples
with nominal samples-per-frame `k ≥ 1` yields `ceil(n/k) = (n + k - 1) / k`
frames (none when `n = 0`); the frame sizes are `n / k` full frames of `k`
samples followed by one short frame of `n % k` samples exactly when `k` does
not divide `n`; for `n ≥ 1` the final frame has `((n - 1) % k) + 1` samples;
and a buffer whose length is a multiple of `k` produces only full frames,
never a trailing empty frame. -/
theorem frame_count_and_sizes (k n : Nat) (hk : 0 < k) (pcm : List Int)
    (hn : pcm.length = n) :
    (framesGen k pcm).length = (n + k - 1) / k ∧
    (framesGen k pcm).map List.length
      = List.replicate (n / k) k ++ (if n % k = 0 then [] else [n % k]) ∧
    (n = 0 → framesGen k pcm = []) ∧
    (0 < n → ((framesGen k pcm).map List.length).getLast?
      = some ((n - 1) % k + 1)) ∧
    (n % k = 0 → (framesGen k pcm).map List.length
      = List.replicate (n / k) k) := by
  subst hn
  have hmap : (framesGen k pcm).map List.length
      = List.replicate (pcm.length / k) k
        ++ (if pcm.length % k = 0 then [] else [pcm.length % k]) :=
    chunksFuel_map_length k hk pcm.length pcm le_rfl
  refine ⟨?_, hmap, ?_, ?_, ?_⟩
  · have hlen : (framesGen k pcm).length
        = ((framesGen k pcm).map List.length).length := by simp
    rw [hlen, hmap, List.length_append, List.length_replicate,
      ← ceil_div_eq k pcm.length hk]
    by_cases hr : pcm.length % k = 0
    · rw [if_pos hr, if_pos hr]
      rfl
    · rw [if_neg hr, if_neg hr]
      rfl
  · intro h0
    have hnil : pcm = [] := by
      cases pcm with
      | nil => rfl
      | cons a rest => simp at h0
    subst hnil
    rfl
  · intro hpos
    rw [hmap]
    have hlast : (List.replicate (pcm.length / k) k
        ++ (if pcm.length % k = 0 then [] else [pcm.length % k])).getLast?
        = some (if pcm.length % k = 0 then k else pcm.length % k) := by
      by_cases hr : pcm.length % k = 0
      · rw [if_pos hr, if_pos hr, List.append_nil]
        have hkn : k ≤ pcm.length :=
          Nat.le_of_dvd hpos (Nat.dvd_of_mod_eq_zero hr)
        have hq : 0 < pcm.length / k := Nat.div_pos hkn hk
        obtain ⟨q, hq1⟩ : ∃ q, pcm.length / k = q + 1 :=
          ⟨pcm.length / k - 1, by omega⟩
        rw [hq1, List.replicate_succ']
        exact List.getLast?_concat _
      · rw [if_neg hr, if_neg hr]
        exact List.getLast?_concat _
    rw [hlast, pred_mod_succ k pcm.length hk hpos]
  · intro hr
    rw [hmap, if_pos hr, List.append_nil]

/-- C2 witness: the concrete scenario — 1000 samples at the hardcoded
`SAMPLES_PER_FRAME = 320` segment into frames of sizes `[320, 320, 320, 40]`. -/
theorem frame_count_and_sizes_witness :
    0 < SAMPLES_PER_FRAME ∧
    (List.replicate 1000 (0 : Int)).length = 1000 ∧
    SAMPLES_PER_FRAME = 320 ∧
    (framesGen SAMPLES_PER_FRAME (List.replicate 1000 (0 : Int))).map List.length
      = [320, 320, 320, 40] := by
  refine ⟨by decide, List.length_replicate 1000 0, by decide, ?_⟩
  have h := (frame_count_and_sizes SAMPLES_PER_FRAME 1000 (by decide)
    (List.replicate 1000 (0 : Int)) (List.length_replicate 1000 0)).2.1
  rw [h]
  decide

/-- C3: InvalidFrameSpec rejection.  For every `FrameSpec` whose derived
nominal samples-per-frame is 0, `segment` fails with the `InvalidFrameSpec`
error before producing any frame — the error result carries no partial frame
sequence.  (`segment` itself is modelled from the spec: the source hardcodes
a spec deriving 320 and has no validation; see its doc comment.) -/
theorem invalid_frame_spec_rejected (spec : FrameSpec) (pcm : List Int)
    (h : spec.nominalSamplesPerFrame = 0) :
    segment spec pcm = Except.error SegmentError.invalidFrameSpec := by
  rw [segment, if_pos h]

/-- C3 witness: sample rate 10 Hz at 1 ms derives nominal samples-per-frame
`10 * 1 / 1000 = 0` and is rejected. -/
theorem invalid_frame_spec_rejected_witness :
    (FrameSpec.mk 10 1 1).nominalSamplesPerFrame = 0 ∧
    segment (FrameSpec.mk 10 1 1) [0, 1, 2]
      = Except.error SegmentError.invalidFrameSpec :=
  ⟨by decide, invalid_frame_spec_rejected _ _ (by decide)⟩

/-- C4: Pacing order and cadence.  With a sink that accepts every frame, the
pacer performs exactly one delivery per frame, strictly in input order (the
successful captures of the trace are exactly the frame list), and each
delivery — the final, possibly short, frame included — is followed by exactly
one pacing delay of the configured `ms` (the fixed nominal duration,
independent of the frame's sample count). -/
theorem pacing_order_and_cadence (frames : List (List Int))
    (sinkOk : Nat → Bool) (ms : Nat) (h : ∀ i, sinkOk i = true) :
    pace sinkOk ms 0 frames = ((frames.map (deliverPat ms)).flatten, true) ∧
    capturedFrames (pace sinkOk ms 0 frames).1 = frames := by
  have h1 := pace_all_ok sinkOk ms h 0 frames
  refine ⟨h1, ?_⟩
  rw [h1]
  exact capturedFrames_flatten_deliverPat ms frames

/-- C4 witness: two frames, an always-accepting sink, 20 ms cadence. -/
theorem pacing_order_and_cadence_witness :
    (∀ i : Nat, (fun _ : Nat => true) i = true) ∧
    pace (fun _ : Nat => true) 20 0 [[1], [2]]
      = ([Ev.capture [1] true, Ev.sleep 20,
          Ev.capture [2] true, Ev.sleep 20], true) := by
  refine ⟨fun _ => rfl, ?_⟩
  have h := (pacing_order_and_cadence [[1], [2]] (fun _ : Nat => true) 20
    (fun _ => rfl)).1
  rw [h]
  decide

/-- C5: Sink-failure abort without retry.  If the sink rejects the frame at
index `j` (0-based) after accepting all earlier ones, the pacer delivers
exactly frames `0..j-1`, makes a single failed attempt at frame `j`, then
propagates the failure: the run ends abnormally with no retry, no delay after
the failure, and no attempt at any later frame. -/
theorem sink_failure_aborts (frames : List (List Int)) (sinkOk : Nat → Bool)
    (ms j : Nat) (hj : j < frames.length)
    (hpre : ∀ t, t < j → sinkOk t = true) (hfail : sinkOk j = false) :
    pace sinkOk ms 0 frames
      = (((frames.take j).map (deliverPat ms)).flatten
          ++ [Ev.capture (frames.getD j []) false], false) ∧
    capturedFrames (pace sinkOk ms 0 frames).1 = frames.take j := by
  have h1 := pace_fail_at sinkOk ms frames 0 j hj
    (by intro t ht; simpa using hpre t ht) (by simpa using hfail)
  refine ⟨h1, ?_⟩
  rw [h1, capturedFrames_append, capturedFrames_flatten_deliverPat,
    capturedFrames_failed_capture, List.append_nil]

/-- C5 witness: a failure on the 3rd of 5 frames — frames 1 and 2 are
delivered, the failure surfaces, frames 4 and 5 are never attempted. -/
theorem sink_failure_aborts_witness :
    2 < ([[1], [2], [3], [4], [5]] : List (List Int)).length ∧
    (∀ t : Nat, t < 2 → (fun i : Nat => decide (i < 2)) t = true) ∧
    (fun i : Nat => decide (i < 2)) 2 = false ∧
    pace (fun i : Nat => decide (i < 2)) 20 0 [[1], [2], [3], [4], [5]]
      = ([Ev.capture [1] true, Ev.sleep 20, Ev.capture [2] true, Ev.sleep 20,
          Ev.capture [3] false], false) := by
  refine ⟨by decide, by decide, by decide, ?_⟩
  have h := (sink_failure_aborts [[1], [2], [3], [4], [5]]
    (fun i : Nat => decide (i < 2)) 20 2 (by decide) (by decide) (by decide)).1
  rw [h]
  decide

/-- C6: Odd-length tolerance.  The trailing unpaired byte of an odd-length
buffer is discarded once, before segmentation (`ttsElevenLabs` trims it, then
`playPcmAsFrames` runs): a buffer of `2m + 1` bytes, trimmed, segments into
exactly the frames of its first `2m` bytes, those frames still carry every
whole sample of the original buffer, and playback of the trimmed buffer is
identical to playback of the first `2m` bytes — oddness never causes an error
or aborts playback. -/
theorem odd_length_tolerance (m : Nat) (b : List Nat) (sinkOk : Nat → Bool)
    (hb : b.length = 2 * m + 1) :
    trimOddByte b = b.take (2 * m) ∧
    framesOfBytes (trimOddByte b) = framesOfBytes (b.take (2 * m)) ∧
    (framesOfBytes (trimOddByte b)).flatten = bytesToSamples b ∧
    playPcmAsFrames sinkOk (some (trimOddByte b))
      = playPcmAsFrames sinkOk (some (b.take (2 * m))) := by
  have hodd : b.length % 2 = 1 := by omega
  have htrim : trimOddByte b = b.take (2 * m) := by
    rw [trimOddByte, if_pos (by omega)]
    congr 1
    omega
  refine ⟨htrim, by rw [htrim], ?_, by rw [htrim]⟩
  rw [htrim, framesOfBytes_flatten, show 2 * m = b.length - 1 by omega]
  exact bytesToSamples_take_pred_odd b hodd

/-- C6 witness: the 3-byte buffer `[0, 1, 2]`. -/
theorem odd_length_tolerance_witness :
    ([0, 1, 2] : List Nat).length = 2 * 1 + 1 ∧
    (trimOddByte [0, 1, 2] = ([0, 1, 2] : List Nat).take (2 * 1) ∧
     framesOfBytes (trimOddByte [0, 1, 2])
       = framesOfBytes (([0, 1, 2] : List Nat).take (2 * 1)) ∧
     (framesOfBytes (trimOddByte [0, 1, 2])).flatten
       = bytesToSamples [0, 1, 2] ∧
     playPcmAsFrames (fun _ : Nat => true) (some (trimOddByte [0, 1, 2]))
       = playPcmAsFrames (fun _ : Nat => true)
           (some (([0, 1, 2] : List Nat).take (2 * 1)))) :=
  ⟨by decide, odd_length_tolerance 1 [0, 1, 2] (fun _ : Nat => true) (by decide)⟩

/-- C7: Empty input is not an error.  Playing an empty buffer completes
immediately and normally: an empty event trace (zero sink deliveries, zero
pacing delay) and a normal-completion flag, for every sink. -/
theorem empty_buffer_ok (sinkOk : Nat → Bool) :
    playPcmAsFrames sinkOk (some []) = ([], true) := rfl

/-- C8: Equivalence of the two segmenter implementations.  On every
even-length buffer the per-frame copying segmenter of `src/unnamed/part_001`
and the zero-copy byte-slicing segmenter of `src/index.js` produce the same
frames: same count, same sample contents, same order. -/
theorem segmenter_equivalence (bytes : List Nat) (h : bytes.length % 2 = 0) :
    framesOfSamples (bytesToSamples bytes) = framesOfBytes bytes :=
  seg_equiv_aux bytes.length bytes le_rfl h

/-- C8 witness: the 4-byte buffer `[1, 2, 3, 4]`. -/
theorem segmenter_equivalence_witness :
    ([1, 2, 3, 4] : List Nat).length % 2 = 0 ∧
    framesOfSamples (bytesToSamples [1, 2, 3, 4]) = framesOfBytes [1, 2, 3, 4] :=
  ⟨by decide, segmenter_equivalence [1, 2, 3, 4] (by decide)⟩

/-- C9: Termination of the framing loop.  For every finite buffer the
segmentation/pacing loop finishes within `length` iterations: run with an
iteration budget equal to the buffer length, the loop of `src/index.js`
(byte cursor, step `FRAME_SIZE_BYTES = 640`) and the loop of
`src/unnamed/part_001` (sample cursor, step `SAMPLES_PER_FRAME = 320`) both
complete (`chunksRun` returns `some`) — each iteration advances the cursor by
`min(step, remaining) ≥ 1` since the hardcoded steps are positive. -/
theorem framing_loop_terminates (bytes : List Nat) (pcm : List Int) :
    chunksRun FRAME_SIZE_BYTES bytes.length bytes
      = some (chunksFuel FRAME_SIZE_BYTES bytes.length bytes) ∧
    chunksRun SAMPLES_PER_FRAME pcm.length pcm
      = some (chunksFuel SAMPLES_PER_FRAME pcm.length pcm) :=
  ⟨chunksRun_complete FRAME_SIZE_BYTES FRAME_SIZE_BYTES_pos
      bytes.length bytes bytes.length le_rfl le_rfl,
   chunksRun_complete SAMPLES_PER_FRAME SAMPLES_PER_FRAME_pos
      pcm.length pcm pcm.length le_rfl le_rfl⟩

/-- C10: Null buffer at the public interface.  A `null`/`undefined` buffer
(modelled as `none`) completes immediately and normally with zero deliveries
and zero delay, never raising an error, and is treated identically to the
empty buffer. -/
theorem null_buffer_ok (sinkOk : Nat → Bool) :
    playPcmAsFrames sinkOk none = ([], true) ∧
    playPcmAsFrames sinkOk none = playPcmAsFrames sinkOk (some []) :=
  ⟨rfl, rfl⟩

end AgentWorker
